import Mathlib

/-!
Shallow embedding of the knowhere brute-force distance core
(thirdparty/faiss/faiss/utils/distances.cpp) and of the GPU flat index node
(src/index/gpu/flat_gpu/flat_gpu.cc), with theorems settling the frozen
claims about the natural-language specification.

Modelling conventions:
* float arithmetic is modelled exactly over ℚ (the claims are stated for
  exact arithmetic);
* the C function sqrtf does not stay inside ℚ, so it is passed as an
  explicit oracle parameter `sq : ℚ → ℚ`; theorems assume its defining
  equation only at the points where the code applies it;
* a vector is a total function ℕ → ℚ together with an explicit dimension
  argument, mirroring the (pointer, d) calling convention of the source;
* OpenMP parallel loops are modelled by their sequential semantics: the
  claims under test are about which (distance, id) pairs are produced,
  which is scheduling-independent in the source.
-/

namespace Knowhere

abbrev Vec := ℕ → ℚ

/-- Embedding of fvec_inner_product (contract from the spec §4.1: standard
dot product over the first d components; the SIMD dispatch is out of scope). -/
def fvec_inner_product (x y : Vec) (d : ℕ) : ℚ :=
  ∑ k ∈ Finset.range d, x k * y k

/-- Embedding of fvec_L2sqr (contract from the spec §4.1: squared Euclidean
distance over the first d components). -/
def fvec_L2sqr (x y : Vec) (d : ℕ) : ℚ :=
  ∑ k ∈ Finset.range d, (x k - y k) ^ 2

/-- Embedding of fvec_norm_L2sqr (squared L2 norm of the first d components). -/
def fvec_norm_L2sqr (v : Vec) (d : ℕ) : ℚ :=
  ∑ k ∈ Finset.range d, v k ^ 2

/-- Embedding of fvec_cosine (distances.cpp:289-291):
inner product divided by the square root of the squared norm of the second
operand only.  sqrtf is the oracle parameter `sq`. -/
def fvec_cosine (sq : ℚ → ℚ) (x y : Vec) (d : ℕ) : ℚ :=
  fvec_inner_product x y d / sq (fvec_norm_L2sqr y d)

/-- Embedding of the global parallel_policy_threshold (distances.cpp:101). -/
def parallel_policy_threshold : ℕ := 65535

/-- Embedding of the strategy dispatch condition of exhaustive_L2sqr_IP_seq
(distances.cpp:213-214): parallel-over-database (exhaustive_parallel_on_ny)
runs exactly when this boolean is true, parallel-over-queries
(exhaustive_parallel_on_nx) otherwise.  All operands are size_t, so plain
naturals with C integer division. -/
def use_parallel_on_ny (nx ny thread_max_num : ℕ) : Bool :=
  decide (ny > parallel_policy_threshold) ||
    (decide (nx < thread_max_num / 2) && decide (ny ≥ thread_max_num * 32))

/-- C9: in exhaustive_L2sqr_IP_seq the parallel-over-database strategy runs
if and only if ny > 65535, or nx < thread_count/2 and ny ≥ thread_count*32;
the parallel-over-queries strategy is chosen in exactly the complementary
cases. -/
theorem C9_seq_dispatch_policy (nx ny t : ℕ) :
    use_parallel_on_ny nx ny t = true ↔ (65535 < ny ∨ (nx < t / 2 ∧ t * 32 ≤ ny)) := by
  simp [use_parallel_on_ny, parallel_policy_threshold]

/-- Status codes of the knowhere index-node API (modelled from the values
used in flat_gpu.cc). -/
inductive Status where
  | success
  | invalid_binary_set
  | not_implemented
  | empty_index
  | faiss_inner_error
  deriving DecidableEq

/-- Embedding of GpuFlatIndexNode::Search (flat_gpu.cc:55-82).  The body of
the empty-index guard constructs an expected error value but does not return
it (the source lacks a return statement), so it is bound to a discarded
local here and control falls through.  The faiss search call (which may
throw) is abstracted as `searchCall`; the catch clause maps an exception to
faiss_inner_error. -/
def GpuFlatIndexNode_Search (α : Type) (indexIsNull : Bool)
    (searchCall : Except String α) : Except (Status × String) α :=
  let _discarded : Option (Except (Status × String) α) :=
    if indexIsNull then some (Except.error (Status.empty_index, "index not loaded")) else none
  match searchCall with
  | Except.error e => Except.error (Status.faiss_inner_error, e)
  | Except.ok r => Except.ok r

/-- Embedding of GpuFlatIndexNode::Serialize (flat_gpu.cc:113-130).  As in
Search, the empty-index guard's error value is constructed and discarded;
the faiss write_index call is abstracted as `writeCall`. -/
def GpuFlatIndexNode_Serialize (indexIsNull : Bool)
    (writeCall : Except String Unit) : Status :=
  let _discarded : Option (Status × String) :=
    if indexIsNull then some (Status.empty_index, "index not loaded") else none
  match writeCall with
  | Except.error _ => Status.faiss_inner_error
  | Except.ok _ => Status.success

/-- C10: in GpuFlatIndexNode, the empty-index guards in Search and Serialize
never cause an early error return: the result of either operation is
independent of whether the index pointer is null, and neither operation ever
reports empty_index to the caller. -/
theorem C10_empty_index_guard_discarded :
    (∀ (α : Type) (b : Bool) (c : Except String α),
      GpuFlatIndexNode_Search α b c = GpuFlatIndexNode_Search α false c ∧
      ∀ msg : String, GpuFlatIndexNode_Search α b c ≠ Except.error (Status.empty_index, msg)) ∧
    (∀ (b : Bool) (w : Except String Unit),
      GpuFlatIndexNode_Serialize b w = GpuFlatIndexNode_Serialize false w ∧
      GpuFlatIndexNode_Serialize b w ≠ Status.empty_index) := by
  constructor
  · intro α b c
    constructor
    · cases c <;> rfl
    · intro msg
      cases c <;> simp [GpuFlatIndexNode_Search]
  · intro b w
    constructor
    · cases w <;> rfl
    · cases w <;> simp [GpuFlatIndexNode_Serialize]

/-- C8: the cosine kernel equals the inner product divided by the square
root of the second operand's squared norm, and it is homogeneous of degree
one in the first operand (so it never normalizes by the query's norm:
scaling the query rescales the score). -/
theorem C8_cosine_second_operand_only (sq : ℚ → ℚ) (x y : Vec) (d : ℕ) (c : ℚ) :
    fvec_cosine sq x y d = fvec_inner_product x y d / sq (fvec_norm_L2sqr y d) ∧
    fvec_cosine sq (fun k => c * x k) y d = c * fvec_cosine sq x y d := by
  refine ⟨rfl, ?_⟩
  have hip : fvec_inner_product (fun k => c * x k) y d = c * fvec_inner_product x y d := by
    simp [fvec_inner_product, Finset.mul_sum, mul_assoc]
  simp [fvec_cosine, hip, mul_div_assoc]

/-- Embedding of BitsetView (the filter-mask abstraction consumed by the
drivers; spec §3): an emptiness flag plus a bit-indexed predicate over
database positions. -/
structure BitsetView where
  empty : Bool
  test : ℕ → Bool

/-- Embedding of the global distance_compute_min_k_reservoir
(distances.cpp:629). -/
def distance_compute_min_k_reservoir : ℕ := 100

/-- Modelled from the spec: faiss/impl/ResultHandler.h and faiss/utils/Heap.h
are not under src/.  Spec §4.2: both the heap handler and the reservoir
handler keep, per query, the best k of the candidates they are fed, and
finalization sorts them best-first (highest score first for similarity
metrics).  The tie-break rule is unspecified (spec §9); this model breaks
ties by id ascending.  This is the sorted insertion step. -/
def insertBest (p : ℚ × ℕ) : List (ℚ × ℕ) → List (ℚ × ℕ)
  | [] => [p]
  | q :: t =>
    if q.1 < p.1 ∨ (p.1 = q.1 ∧ p.2 ≤ q.2) then p :: q :: t else q :: insertBest p t

/-- Modelled from the spec (§4.2, continued): sort candidates best-first. -/
def sortBest (l : List (ℚ × ℕ)) : List (ℚ × ℕ) :=
  l.foldr insertBest []

/-- Modelled from the spec (§4.2, continued): the per-query answer delivered
by either handler is the best-k prefix of the sorted candidates. -/
def topk (k : ℕ) (l : List (ℚ × ℕ)) : List (ℚ × ℕ) :=
  (sortBest l).take k

/-- Embedding of the candidate-admission loop of exhaustive_parallel_on_nx
(distances.cpp:119-132): for one query, every database position j in scan
order is scored with the driver-selected kernel and handed to the handler
unless the bitset filters it. -/
def seq_scan (dis : Vec → Vec → ℕ → ℚ) (x_i : Vec) (y : ℕ → Vec) (d ny : ℕ)
    (bitset : BitsetView) : List (ℚ × ℕ) :=
  (List.range ny).filterMap fun j =>
    if bitset.empty || !bitset.test j then some (dis x_i (y j) d, j) else none

/-- Embedding of the sequential branch of knn_cosine (distances.cpp:697-711,
the nx-below-BLAS-threshold case): the heap branch (k < 100) passes
fvec_cosine to exhaustive_L2sqr_IP_seq (line 701), while the reservoir
branch passes fvec_inner_product (line 710); per query the selected handler
then keeps the best k of the scanned candidates. -/
def knn_cosine_seq (sq : ℚ → ℚ) (x y : ℕ → Vec) (d ny k : ℕ)
    (bitset : BitsetView) (i : ℕ) : List (ℚ × ℕ) :=
  let dis := if k < distance_compute_min_k_reservoir then fvec_cosine sq
             else fun a b dd => fvec_inner_product a b dd
  topk k (seq_scan dis (x i) y d ny bitset)

/-- Query batch of the C1 counterexample: the single query (1, 0). -/
def c1x : ℕ → Vec := fun _ j => if j = 0 then 1 else 0

/-- Database of the C1 counterexample: y0 = (2, 0), y1 = (3, 4). -/
def c1y : ℕ → Vec := fun i j =>
  if i = 0 then (if j = 0 then 2 else 0)
  else (if j = 0 then 3 else if j = 1 then 4 else 0)

/-- Square-root oracle for the C1 counterexample, exact on the norms that
occur there. -/
def c1sq : ℚ → ℚ := fun q => if q = 4 then 2 else if q = 25 then 5 else 0

/-- Bitset standing for a call with no filtering. -/
def emptyBitset : BitsetView := ⟨true, fun _ => false⟩

/-- C1: evaluation of knn_cosine at the failing input x = [(1,0)],
y = [(2,0), (3,4)], d = 2.  Contrary to the claim, the two handler branches
do not score with the same kernel: the heap branch (k = 1) returns the pair
(1, 0) (cosine of y0), while the reservoir branch (k = 100) feeds raw inner
products to the handler, so candidate 0 is reported with distance 2 and the
best-scoring candidate becomes id 1. -/
theorem C1_knn_cosine_reservoir_scores_inner_product :
    knn_cosine_seq c1sq c1x c1y 2 2 1 emptyBitset 0 = [(1, 0)] ∧
    knn_cosine_seq c1sq c1x c1y 2 2 100 emptyBitset 0 = [(3, 1), (2, 0)] := by
  constructor <;>
    norm_num [knn_cosine_seq, distance_compute_min_k_reservoir, topk, sortBest,
      insertBest, seq_scan, List.range_succ, fvec_cosine, fvec_inner_product,
      fvec_norm_L2sqr, Finset.sum_range_succ, c1sq, c1x, c1y, emptyBitset,
      List.filterMap_cons, List.foldr_cons, List.foldr_nil]

/-- Embedding of the tile iteration shared by the BLAS-backed paths
(distances.cpp:345-375, 415-461, 491-532, 563-615): queries are tiled in
blocks of bs_x, the database in blocks of bs_y, and for each tile every
entry (i, j) of the corrected distance sub-matrix is ingested into the
result handler.  The returned list is the sequence of (i, j, value) triples
ingested across all tiles. -/
def blas_blocked_ingest (nx ny bsx bsy : ℕ) (entry : ℕ → ℕ → ℚ) :
    List (ℕ × ℕ × ℚ) :=
  (List.range ((nx + bsx - 1) / bsx)).flatMap fun bi =>
    (List.range ((ny + bsy - 1) / bsy)).flatMap fun bj =>
      (List.range' (bi * bsx) (min nx (bi * bsx + bsx) - bi * bsx)).flatMap fun i =>
        (List.range' (bj * bsy) (min ny (bj * bsy + bsy) - bj * bsy)).map fun j =>
          (i, j, entry i j)

/-- Every value ingested by the blocked iteration is the entry function
evaluated at its own (i, j) position. -/
theorem blas_blocked_ingest_value (nx ny bsx bsy : ℕ) (entry : ℕ → ℕ → ℚ)
    (i j : ℕ) (v : ℚ) (h : (i, j, v) ∈ blas_blocked_ingest nx ny bsx bsy entry) :
    v = entry i j := by
  simp only [blas_blocked_ingest, List.mem_flatMap, List.mem_map] at h
  obtain ⟨bi, -, bj, -, i', -, j', -, he⟩ := h
  obtain ⟨rfl, rfl, rfl⟩ := Prod.mk.injEq .. ▸ he
  rfl

/-- Embedding of the norm-table construction of exhaustive_cosine_blas
(distances.cpp:486-489): the buffer named y_norms has nx entries and is
filled by fvec_norms_L2 (distances.cpp:58-67) from the QUERY array x, so
slot j holds the L2 norm of query vector x_j.  sqrtf is the oracle sq. -/
def cosine_blas_y_norms (sq : ℚ → ℚ) (x : ℕ → Vec) (d : ℕ) : ℕ → ℚ :=
  fun j => sq (fvec_norm_L2sqr (x j) d)

/-- Embedding of the correction loop of exhaustive_cosine_blas
(distances.cpp:520-531): entry (i, j) of the tile handed to add_results is
the inner product (the sgemm call is modelled as exact matrix
multiplication, per the injected-gemm contract of spec §4.3 and §9) divided
by y_norms[j]. -/
def cosine_blas_entry (sq : ℚ → ℚ) (x y : ℕ → Vec) (d : ℕ) (i j : ℕ) : ℚ :=
  fvec_inner_product (x i) (y j) d / cosine_blas_y_norms sq x d j

/-- Embedding of exhaustive_cosine_blas (distances.cpp:469-536) as the list
of ingested (i, j, value) triples, at the default tile sizes
distance_compute_blas_query_bs = 4096 and
distance_compute_blas_database_bs = 1024 (distances.cpp:627-628). -/
def exhaustive_cosine_blas_ingested (sq : ℚ → ℚ) (x y : ℕ → Vec)
    (d nx ny : ℕ) : List (ℕ × ℕ × ℚ) :=
  blas_blocked_ingest nx ny 4096 1024 (cosine_blas_entry sq x y d)

/-- Queries of the C2 counterexample: x0 = (1, 0), x1 = (3, 4). -/
def c2x : ℕ → Vec := fun i j =>
  if i = 0 then (if j = 0 then 1 else 0)
  else (if j = 0 then 3 else if j = 1 then 4 else 0)

/-- Database of the C2 counterexample: y0 = (0, 2), y1 = (6, 8). -/
def c2y : ℕ → Vec := fun i j =>
  if i = 0 then (if j = 1 then 2 else 0)
  else (if j = 0 then 6 else if j = 1 then 8 else 0)

/-- Square-root oracle for the C2 counterexample, exact on the norms that
occur there. -/
def c2sq : ℚ → ℚ :=
  fun q => if q = 1 then 1 else if q = 25 then 5 else
    if q = 4 then 2 else if q = 100 then 10 else 0

/-- C2: evaluation of exhaustive_cosine_blas at the failing input
x = [(1,0), (3,4)], y = [(0,2), (6,8)], d = 2.  The score ingested for
query 0 against database position 1 is 6/5 = ip / ‖x_1‖ (the norm table is
filled from the queries), not ip / ‖y_1‖ = 6/10 as the claim states. -/
theorem C2_cosine_blas_norm_table_from_queries :
    (0, 1, (6 : ℚ)/5) ∈ exhaustive_cosine_blas_ingested c2sq c2x c2y 2 2 2 ∧
    cosine_blas_entry c2sq c2x c2y 2 0 1 ≠
      fvec_inner_product (c2x 0) (c2y 1) 2 / c2sq (fvec_norm_L2sqr (c2y 1) 2) := by
  constructor
  · norm_num [exhaustive_cosine_blas_ingested, blas_blocked_ingest,
      cosine_blas_entry, cosine_blas_y_norms, fvec_inner_product,
      fvec_norm_L2sqr, Finset.sum_range_succ, List.range_succ, List.range',
      c2sq, c2x, c2y]
  · norm_num [cosine_blas_entry, cosine_blas_y_norms, fvec_inner_product,
      fvec_norm_L2sqr, Finset.sum_range_succ, c2sq, c2x, c2y]

/-- Embedding of the correction loop of knn_jaccard_blas
(distances.cpp:594-613): for tile entry (i, j), the bitset-guarded branch
overwrites the raw sgemm inner product with the clamped jaccard distance
(passed through the NopDistanceCorrection of knn_jaccard,
distances.cpp:717-721); for positions the bitset filters, the branch is
skipped and the entry keeps the raw inner product.  The surrounding
add_results call (distances.cpp:614) is made WITHOUT the bitset argument,
so every entry of the tile is ingested. -/
def jaccard_blas_entry (x y : ℕ → Vec) (d : ℕ) (bitset : BitsetView)
    (i j : ℕ) : ℚ :=
  let ip := fvec_inner_product (x i) (y j) d
  if bitset.empty || !bitset.test j then
    let dis := 1 - ip / (fvec_norm_L2sqr (x i) d + fvec_norm_L2sqr (y j) d - ip)
    if dis < 0 then 0 else dis
  else ip

/-- Embedding of knn_jaccard_blas (distances.cpp:539-619) as the list of
ingested (i, j, value) triples, at its fixed tile sizes bs_x = 4096 and
bs_y = 1024 (distances.cpp:553). -/
def knn_jaccard_blas_ingested (x y : ℕ → Vec) (d nx ny : ℕ)
    (bitset : BitsetView) : List (ℕ × ℕ × ℚ) :=
  blas_blocked_ingest nx ny 4096 1024 (jaccard_blas_entry x y d bitset)

/-- Vectors of the C3 counterexample: the single query and single database
vector are both (1, 1, 0, 0). -/
def c3v : ℕ → Vec := fun _ j => if j < 2 then 1 else 0

/-- Bitset of the C3 counterexample: non-empty, filtering database
position 0. -/
def c3bitset : BitsetView := ⟨false, fun j => j = 0⟩

/-- C3: evaluation of knn_jaccard_blas at the failing input nx = ny = 1,
d = 4, x0 = y0 = (1,1,0,0), with a non-empty bitset filtering position 0.
The pair (distance 2, id 0) — the raw sgemm inner product, not even a
jaccard distance — is ingested into the result handler for query 0 although
bitset.test 0 is true, because add_results is called without the bitset. -/
theorem C3_jaccard_blas_ingests_masked_position :
    c3bitset.empty = false ∧ c3bitset.test 0 = true ∧
    (0, 0, (2 : ℚ)) ∈ knn_jaccard_blas_ingested c3v c3v 4 1 1 c3bitset := by
  refine ⟨rfl, by norm_num [c3bitset], ?_⟩
  norm_num [knn_jaccard_blas_ingested, blas_blocked_ingest, jaccard_blas_entry,
    fvec_inner_product, fvec_norm_L2sqr, Finset.sum_range_succ,
    List.range_succ, List.range', c3bitset, c3v]

/-- Embedding of the per-query candidate scan of knn_inner_products_by_idx
(distances.cpp:900-908): the loop breaks at the first negative id; every
candidate before it is scored against the query.  The value is the sequence
of (score, id) pairs offered to the per-query heap, in scan order.  The
database is total over ℤ because the source indexes it by pointer
arithmetic y + d * idsi[j]. -/
def knn_inner_products_by_idx_scan (x_ : Vec) (y : ℤ → Vec) (d : ℕ) :
    List ℤ → List (ℚ × ℤ)
  | [] => []
  | t :: rest =>
    if t < 0 then []
    else (fvec_inner_product x_ (y t) d, t) :: knn_inner_products_by_idx_scan x_ y d rest

/-- Embedding of the per-query candidate scan of knn_L2sqr_by_idx
(distances.cpp:930-936): this loop has no negative-id check, so every
candidate in the list is scored, negative ids included. -/
def knn_L2sqr_by_idx_scan (x_ : Vec) (y : ℤ → Vec) (d : ℕ) :
    List ℤ → List (ℚ × ℤ)
  | [] => []
  | t :: rest =>
    (fvec_L2sqr x_ (y t) d, t) :: knn_L2sqr_by_idx_scan x_ y d rest

/-- Query of the C5 counterexample: the 1-dimensional vector (0). -/
def c5x : Vec := fun _ => 0

/-- Database of the C5 counterexample: vector at id t is the constant (t). -/
def c5y : ℤ → Vec := fun t _ => (t : ℚ)

/-- C5 counterexample: on the candidate list [-1, 0], knn_L2sqr_by_idx
scores and offers to the heap the candidate with id 0 sitting AFTER the
first negative id (and even scores the negative id itself), while
knn_inner_products_by_idx stops at the negative id.  This refutes the claim
that both by-index variants stop the scan at the first negative id. -/
theorem C5_L2sqr_by_idx_scans_past_negative_id :
    knn_L2sqr_by_idx_scan c5x c5y 1 [-1, 0] = [(1, -1), (0, 0)] ∧
    knn_inner_products_by_idx_scan c5x c5y 1 [-1, 0] = [] := by
  constructor <;>
    norm_num [knn_L2sqr_by_idx_scan, knn_inner_products_by_idx_scan,
      fvec_L2sqr, fvec_inner_product, Finset.sum_range_succ, c5x, c5y]

/-- C5 amended: knn_inner_products_by_idx evaluates exactly the candidates
strictly before the first negative id (so nothing at or after it is
evaluated or offered to the heap), while knn_L2sqr_by_idx has no negative-id
check and evaluates every candidate in the list. -/
theorem C5_by_idx_negative_id_amended (x_ : Vec) (y : ℤ → Vec) (d : ℕ)
    (ids : List ℤ) :
    knn_inner_products_by_idx_scan x_ y d ids =
      (ids.takeWhile (fun t => decide (0 ≤ t))).map
        (fun t => (fvec_inner_product x_ (y t) d, t)) ∧
    knn_L2sqr_by_idx_scan x_ y d ids =
      ids.map (fun t => (fvec_L2sqr x_ (y t) d, t)) := by
  induction ids with
  | nil => exact ⟨rfl, rfl⟩
  | cons t rest ih =>
    refine ⟨?_, ?_⟩
    · rw [knn_inner_products_by_idx_scan, List.takeWhile_cons]
      rcases lt_or_le t 0 with ht | ht
      · rw [if_pos ht, if_neg (by simpa using not_le_of_lt ht)]
        rfl
      · rw [if_neg (not_lt_of_le ht), if_pos (by simpa using ht), List.map_cons, ih.1]
    · rw [knn_L2sqr_by_idx_scan, List.map_cons, ih.2]

/-- The squared L2 distance is a sum of squares, hence nonnegative. -/
theorem fvec_L2sqr_nonneg (x y : Vec) (d : ℕ) : 0 ≤ fvec_L2sqr x y d :=
  Finset.sum_nonneg fun _ _ => sq_nonneg _

/-- Norm identity: ‖a‖² + ‖b‖² − 2⟨a,b⟩ = ‖a−b‖², exactly, termwise over the
first d components. -/
theorem l2_norm_identity (x y : Vec) (d : ℕ) :
    fvec_norm_L2sqr x d + fvec_norm_L2sqr y d - 2 * fvec_inner_product x y d =
      fvec_L2sqr x y d := by
  simp only [fvec_norm_L2sqr, fvec_inner_product, fvec_L2sqr, Finset.mul_sum,
    ← Finset.sum_add_distrib, ← Finset.sum_sub_distrib]
  exact Finset.sum_congr rfl fun k _ => by ring

/-- Embedding of the correction loop of exhaustive_L2sqr_blas
(distances.cpp:444-460): entry (i, j) of the tile handed to add_results is
x_norms[i] + y_norms[j] − 2·ip with a negative result clamped to zero.  The
sgemm call is modelled as exact matrix multiplication (injected-gemm
contract, spec §4.3 and §9); both norm tables come from fvec_norms_L2sqr
(distances.cpp:406-413; a caller-provided y_norms table holds the same
values in exact arithmetic). -/
def l2sqr_blas_entry (x y : ℕ → Vec) (d : ℕ) (i j : ℕ) : ℚ :=
  let ip := fvec_inner_product (x i) (y j) d
  let dis := fvec_norm_L2sqr (x i) d + fvec_norm_L2sqr (y j) d - 2 * ip
  if dis < 0 then 0 else dis

/-- Embedding of exhaustive_L2sqr_blas (distances.cpp:385-466) as the list
of ingested (i, j, value) triples, at the default tile sizes 4096 × 1024
(distances.cpp:627-628). -/
def exhaustive_L2sqr_blas_ingested (x y : ℕ → Vec) (d nx ny : ℕ) :
    List (ℕ × ℕ × ℚ) :=
  blas_blocked_ingest nx ny 4096 1024 (l2sqr_blas_entry x y d)

/-- C6: every distance ingested into the result handler by the BLAS-backed
L2 path equals max(0, ‖x_i‖² + ‖y_j‖² − 2⟨x_i, y_j⟩); it is never negative,
and (in exact arithmetic, where the clamp can never fire) it equals the
exact squared L2 distance. -/
theorem C6_l2sqr_blas_clamped_norm_identity (x y : ℕ → Vec) (d nx ny : ℕ)
    (i j : ℕ) (v : ℚ)
    (h : (i, j, v) ∈ exhaustive_L2sqr_blas_ingested x y d nx ny) :
    v = max 0 (fvec_norm_L2sqr (x i) d + fvec_norm_L2sqr (y j) d -
        2 * fvec_inner_product (x i) (y j) d) ∧
    0 ≤ v ∧ v = fvec_L2sqr (x i) (y j) d := by
  have hv : v = l2sqr_blas_entry x y d i j :=
    blas_blocked_ingest_value _ _ _ _ _ _ _ _ h
  have hd : fvec_norm_L2sqr (x i) d + fvec_norm_L2sqr (y j) d -
      2 * fvec_inner_product (x i) (y j) d = fvec_L2sqr (x i) (y j) d :=
    l2_norm_identity (x i) (y j) d
  have hnn : 0 ≤ fvec_L2sqr (x i) (y j) d := fvec_L2sqr_nonneg (x i) (y j) d
  have he : l2sqr_blas_entry x y d i j = fvec_L2sqr (x i) (y j) d := by
    rw [l2sqr_blas_entry]
    simp only [hd]
    rw [if_neg (not_lt_of_le hnn)]
  refine ⟨?_, ?_, ?_⟩
  · rw [hv, he, hd, max_eq_right hnn]
  · rw [hv, he]; exact hnn
  · rw [hv, he]

/-- Single query (3) of the C6 witness. -/
def c6x : ℕ → Vec := fun _ _ => 3

/-- Single database vector (1) of the C6 witness. -/
def c6y : ℕ → Vec := fun _ _ => 1

/-- C6 witness: at d = 1, nx = ny = 1, x0 = (3), y0 = (1), the triple
(0, 0, 4) is ingested and the theorem instantiates at it. -/
theorem C6_l2sqr_blas_clamped_norm_identity_witness :
    ((0, 0, (4 : ℚ)) ∈ exhaustive_L2sqr_blas_ingested c6x c6y 1 1 1) ∧
    ((4 : ℚ) = max 0 (fvec_norm_L2sqr (c6x 0) 1 + fvec_norm_L2sqr (c6y 0) 1 -
        2 * fvec_inner_product (c6x 0) (c6y 0) 1) ∧
      (0 : ℚ) ≤ 4 ∧ (4 : ℚ) = fvec_L2sqr (c6x 0) (c6y 0) 1) := by
  have hm : (0, 0, (4 : ℚ)) ∈ exhaustive_L2sqr_blas_ingested c6x c6y 1 1 1 := by
    norm_num [exhaustive_L2sqr_blas_ingested, blas_blocked_ingest,
      l2sqr_blas_entry, fvec_inner_product, fvec_norm_L2sqr,
      Finset.sum_range_succ, List.range_succ, List.range', c6x, c6y]
  exact ⟨hm, C6_l2sqr_blas_clamped_norm_identity c6x c6y 1 1 1 0 0 4 hm⟩

/-- Embedding of fvec_renorm_L2 (distances.cpp:79-93): in place, each of the
n vectors is multiplied componentwise by inv_nr = 1 / sqrtf(nr) where nr is
its squared norm, guarded by nr > 0; sqrtf is the oracle sq.  Components
outside the mutated region (i ≥ n or j ≥ d) are returned unchanged. -/
def fvec_renorm_L2 (sq : ℚ → ℚ) (d n : ℕ) (x : ℕ → Vec) : ℕ → Vec :=
  fun i j =>
    if i < n ∧ j < d then
      (if 0 < fvec_norm_L2sqr (x i) d then
        x i j * (1 / sq (fvec_norm_L2sqr (x i) d))
      else x i j)
    else x i j

/-- After renormalization, a row whose original squared norm nr is positive
has squared norm nr / sq(nr)², which is 1 when sq is exact at nr. -/
theorem fvec_renorm_L2_unit_norm (sq : ℚ → ℚ) (d n : ℕ) (x : ℕ → Vec)
    (i : ℕ) (hi : i < n) (hpos : 0 < fvec_norm_L2sqr (x i) d)
    (hsq : sq (fvec_norm_L2sqr (x i) d) ^ 2 = fvec_norm_L2sqr (x i) d) :
    fvec_norm_L2sqr (fvec_renorm_L2 sq d n x i) d = 1 := by
  have hs0 : sq (fvec_norm_L2sqr (x i) d) ≠ 0 := by
    intro h0
    rw [h0] at hsq
    simp only [ne_eq, zero_pow, OfNat.ofNat_ne_zero, not_false_eq_true] at hsq
    exact absurd hsq.symm (ne_of_gt hpos)
  have hrow : ∀ j, j < d →
      fvec_renorm_L2 sq d n x i j = x i j * (1 / sq (fvec_norm_L2sqr (x i) d)) := by
    intro j hj
    simp only [fvec_renorm_L2]
    rw [if_pos ⟨hi, hj⟩, if_pos hpos]
  rw [fvec_norm_L2sqr]
  rw [Finset.sum_congr rfl fun j hj => by
    rw [hrow j (Finset.mem_range.mp hj)]]
  have : ∑ j ∈ Finset.range d, (x i j * (1 / sq (fvec_norm_L2sqr (x i) d))) ^ 2 =
      (∑ j ∈ Finset.range d, x i j ^ 2) * (1 / sq (fvec_norm_L2sqr (x i) d)) ^ 2 := by
    rw [Finset.sum_mul]
    exact Finset.sum_congr rfl fun j _ => by ring
  rw [this]
  have hnr : (∑ j ∈ Finset.range d, x i j ^ 2) = fvec_norm_L2sqr (x i) d := rfl
  rw [hnr, div_pow, one_pow, hsq]
  exact mul_one_div_cancel (ne_of_gt hpos)

/-- A row whose squared norm is zero is returned unchanged, componentwise. -/
theorem fvec_renorm_L2_zero_norm (sq : ℚ → ℚ) (d n : ℕ) (x : ℕ → Vec)
    (i : ℕ) (hz : fvec_norm_L2sqr (x i) d = 0) :
    ∀ j, fvec_renorm_L2 sq d n x i j = x i j := by
  intro j
  simp only [fvec_renorm_L2]
  rcases Decidable.em (i < n ∧ j < d) with h | h
  · rw [if_pos h, if_neg (by rw [hz]; exact lt_irrefl 0)]
  · rw [if_neg h]

/-- C7: fvec_renorm_L2 is idempotent in exact arithmetic, scales every
vector of positive norm to unit L2 norm, and leaves every vector of zero
norm unchanged, provided the square-root oracle is exact at the norms the
code applies it to (and at 1). -/
theorem C7_renorm_idempotent (sq : ℚ → ℚ) (d n : ℕ) (x : ℕ → Vec)
    (hsq : ∀ i, i < n → 0 < fvec_norm_L2sqr (x i) d →
      sq (fvec_norm_L2sqr (x i) d) ^ 2 = fvec_norm_L2sqr (x i) d)
    (h1 : sq 1 = 1) :
    fvec_renorm_L2 sq d n (fvec_renorm_L2 sq d n x) = fvec_renorm_L2 sq d n x ∧
    (∀ i, i < n → 0 < fvec_norm_L2sqr (x i) d →
      fvec_norm_L2sqr (fvec_renorm_L2 sq d n x i) d = 1) ∧
    (∀ i, fvec_norm_L2sqr (x i) d = 0 →
      ∀ j, fvec_renorm_L2 sq d n x i j = x i j) := by
  refine ⟨?_, fun i hi hpos => fvec_renorm_L2_unit_norm sq d n x i hi hpos (hsq i hi hpos),
    fun i hz j => fvec_renorm_L2_zero_norm sq d n x i hz j⟩
  funext i j
  set X : ℕ → Vec := fvec_renorm_L2 sq d n x with hX
  rcases Decidable.em (i < n ∧ j < d) with hij | hij
  · rcases lt_or_le 0 (fvec_norm_L2sqr (x i) d) with hpos | hle
    · have hunit : fvec_norm_L2sqr (X i) d = 1 := by
        rw [hX]
        exact fvec_renorm_L2_unit_norm sq d n x i hij.1 hpos (hsq i hij.1 hpos)
      simp only [fvec_renorm_L2]
      rw [if_pos hij, if_pos (by rw [hunit]; exact one_pos), hunit, h1]
      norm_num
    · have hz : fvec_norm_L2sqr (x i) d = 0 :=
        le_antisymm hle (Finset.sum_nonneg fun _ _ => sq_nonneg _)
      have hz2 : fvec_norm_L2sqr (X i) d = 0 := by
        rw [hX, fvec_norm_L2sqr,
          Finset.sum_congr rfl fun j' _ => by rw [fvec_renorm_L2_zero_norm sq d n x i hz j']]
        exact hz
      simp only [fvec_renorm_L2]
      rw [if_pos hij, if_neg (by rw [hz2]; exact lt_irrefl 0)]
  · simp only [fvec_renorm_L2]
    rw [if_neg hij]

/-- Batch of the C7 witness: the single vector (3, 4). -/
def c7x : ℕ → Vec := fun _ j => if j = 0 then 3 else if j = 1 then 4 else 0

/-- Square-root oracle of the C7 witness, exact at 25 and 1. -/
def c7sq : ℚ → ℚ := fun q => if q = 25 then 5 else if q = 1 then 1 else 0

/-- C7 witness: the theorem instantiated at the batch [(3, 4)] with d = 2,
n = 1, with both oracle hypotheses discharged by evaluation. -/
theorem C7_renorm_idempotent_witness :
    (∀ i, i < 1 → 0 < fvec_norm_L2sqr (c7x i) 2 →
      c7sq (fvec_norm_L2sqr (c7x i) 2) ^ 2 = fvec_norm_L2sqr (c7x i) 2) ∧
    c7sq 1 = 1 ∧
    (fvec_renorm_L2 c7sq 2 1 (fvec_renorm_L2 c7sq 2 1 c7x) =
        fvec_renorm_L2 c7sq 2 1 c7x ∧
      (∀ i, i < 1 → 0 < fvec_norm_L2sqr (c7x i) 2 →
        fvec_norm_L2sqr (fvec_renorm_L2 c7sq 2 1 c7x i) 2 = 1) ∧
      (∀ i, fvec_norm_L2sqr (c7x i) 2 = 0 →
        ∀ j, fvec_renorm_L2 c7sq 2 1 c7x i j = c7x i j)) := by
  have hsq : ∀ i, i < 1 → 0 < fvec_norm_L2sqr (c7x i) 2 →
      c7sq (fvec_norm_L2sqr (c7x i) 2) ^ 2 = fvec_norm_L2sqr (c7x i) 2 := by
    intro i hi
    interval_cases i
    norm_num [fvec_norm_L2sqr, Finset.sum_range_succ, c7x, c7sq]
  have h1 : c7sq 1 = 1 := by norm_num [c7sq]
  exact ⟨hsq, h1, C7_renorm_idempotent c7sq 2 1 c7x hsq h1⟩

/-- Pointer arithmetic x + off on a vector (used by the two-half evaluation
of elkan_L2_sse, distances.cpp:1066-1070). -/
def vshift (x : Vec) (off : ℕ) : Vec := fun k => x (off + k)

/-- The squared L2 distance is symmetric. -/
theorem fvec_L2sqr_comm (x y : Vec) (d : ℕ) : fvec_L2sqr x y d = fvec_L2sqr y x d :=
  Finset.sum_congr rfl fun _ _ => by ring

/-- Two-half split of the squared L2 distance: the first d/2 components plus
the remaining d − d/2 components (shifted by d/2) sum to the whole, exactly. -/
theorem fvec_L2sqr_split (x y : Vec) (d : ℕ) :
    fvec_L2sqr x y (d / 2) +
      fvec_L2sqr (vshift x (d / 2)) (vshift y (d / 2)) (d - d / 2) =
      fvec_L2sqr x y d := by
  simp only [fvec_L2sqr, vshift]
  have h2 : ∑ k ∈ Finset.range (d - d / 2), (x (d / 2 + k) - y (d / 2 + k)) ^ 2 =
      ∑ k ∈ Finset.Ico (d / 2) d, (x k - y k) ^ 2 :=
    (Finset.sum_Ico_eq_sum_range (fun k => (x k - y k) ^ 2) (d / 2) d).symm
  have h3 : ∑ k ∈ Finset.range d, (x k - y k) ^ 2 =
      ∑ k ∈ Finset.range (d / 2), (x k - y k) ^ 2 +
        ∑ k ∈ Finset.Ico (d / 2) d, (x k - y k) ^ 2 := by
    rw [Finset.range_eq_Ico,
      ← Finset.sum_Ico_consecutive (fun k => (x k - y k) ^ 2)
        (Nat.zero_le (d / 2)) (Nat.div_le_self d 2)]
  rw [h2, h3]

/-- Triangle-inequality skip bound of elkan_L2_sse (distances.cpp:1062), in
exact arithmetic: if 4·‖x−u‖² ≤ ‖u−w‖² then ‖x−u‖² ≤ ‖x−w‖², so a candidate
passing the skip test cannot be strictly better than the current best. -/
theorem elkan_skip_bound (x u w : Vec) (d : ℕ)
    (h : fvec_L2sqr x u d * 4 ≤ fvec_L2sqr u w d) :
    fvec_L2sqr x u d ≤ fvec_L2sqr x w d := by
  have hA : 0 ≤ fvec_L2sqr x u d := fvec_L2sqr_nonneg x u d
  have hB : 0 ≤ fvec_L2sqr u w d := fvec_L2sqr_nonneg u w d
  have hcs := Finset.sum_mul_sq_le_sq_mul_sq (Finset.range d)
    (fun k => u k - w k) (fun k => u k - x k)
  have hBs : (∑ k ∈ Finset.range d, (u k - w k) ^ 2) = fvec_L2sqr u w d :=
    Finset.sum_congr rfl fun _ _ => by ring
  have hAs : (∑ k ∈ Finset.range d, (u k - x k) ^ 2) = fvec_L2sqr x u d :=
    Finset.sum_congr rfl fun _ _ => by ring
  rw [hBs, hAs] at hcs
  have hid : fvec_L2sqr x w d =
      fvec_L2sqr x u d + fvec_L2sqr u w d -
        2 * ∑ k ∈ Finset.range d, (u k - w k) * (u k - x k) := by
    simp only [fvec_L2sqr, Finset.mul_sum, ← Finset.sum_add_distrib,
      ← Finset.sum_sub_distrib]
    exact Finset.sum_congr rfl fun k _ => by ring
  rw [hid]
  nlinarith [hcs, h, hA, hB]

/-- One evaluation step of the per-query inner loop of elkan_L2_sse
(distances.cpp:1061-1076), acting on the running state s = (ids_i, val_i):
the triangle-inequality skip compares val_i * 4 against the block's pairwise
table entry Y(ids_i, j) (the table stores exactly fvec_L2sqr(y_ids, y_j, d),
distances.cpp:1045-1050; it is recomputed here, value-equal in exact
arithmetic), then the first-half distance with early exit when it already
reaches val_i, then the full distance with the strict improvement test. -/
def elkanStep (x : Vec) (y : ℕ → Vec) (d : ℕ) (s : ℕ × ℚ) (j : ℕ) : ℕ × ℚ :=
  if s.2 * 4 ≤ fvec_L2sqr (y s.1) (y j) d then s
  else if s.2 ≤ fvec_L2sqr x (y j) (d / 2) then s
  else if fvec_L2sqr x (y j) (d / 2) +
      fvec_L2sqr (vshift x (d / 2)) (vshift (y j) (d / 2)) (d - d / 2) < s.2 then
    (j, fvec_L2sqr x (y j) (d / 2) +
      fvec_L2sqr (vshift x (d / 2)) (vshift (y j) (d / 2)) (d - d / 2))
  else s

/-- Per-query scan of one database block [j0, j1) of elkan_L2_sse
(distances.cpp:1058-1076): the state is initialized at the block's first
member with its fully computed distance, then every subsequent member is
processed by elkanStep. -/
def elkanBlock (x : Vec) (y : ℕ → Vec) (d j0 j1 : ℕ) : ℕ × ℚ :=
  (List.range' (j0 + 1) (j1 - (j0 + 1))).foldl (elkanStep x y d)
    (j0, fvec_L2sqr x (y j0) d)

/-- Block-merge step of the outer loop of elkan_L2_sse
(distances.cpp:1029-1083): block b covers [b·bs, min(b·bs + bs, ny)); the
first block commits its result unconditionally (j0 == 0), later blocks
overwrite the running best exactly when strictly better (val[i] > val_i). -/
def elkanOuterStep (x : Vec) (y : ℕ → Vec) (d ny bs : ℕ) (acc : ℕ × ℚ) (b : ℕ) :
    ℕ × ℚ :=
  if b = 0 then elkanBlock x y d (b * bs) (min (b * bs + bs) ny)
  else if (elkanBlock x y d (b * bs) (min (b * bs + bs) ny)).2 < acc.2 then
    elkanBlock x y d (b * bs) (min (b * bs + bs) ny)
  else acc

/-- Per-query elkan_L2_sse with block size bs: the outer loop makes
⌈ny / bs⌉ block iterations (the initial accumulator is irrelevant: the first
block overwrites it). -/
def elkan_L2_blocked (x : Vec) (y : ℕ → Vec) (d ny bs : ℕ) : ℕ × ℚ :=
  (List.range ((ny + bs - 1) / bs)).foldl (elkanOuterStep x y d ny bs) (0, 0)

/-- Embedding of elkan_L2_sse (distances.cpp:1014-1086) at the source's
fixed block size bs_y = 1024 (distances.cpp:1026), per query i: the
(ids[i], val[i]) pair written for query x_i. -/
def elkan_L2_sse (x : ℕ → Vec) (y : ℕ → Vec) (d nx ny : ℕ) (i : ℕ) : ℕ × ℚ :=
  elkan_L2_blocked (x i) y d ny 1024

/-- One step of the brute-force running-minimum scan: overwrite exactly when
strictly better, so the first position attaining the minimum is kept. -/
def bruteStep (f : ℕ → ℚ) (s : ℕ × ℚ) (j : ℕ) : ℕ × ℚ :=
  if f j < s.2 then (j, f j) else s

/-- Brute-force exact nearest neighbor of query x over database positions
[0, ny): the reference a full scan produces. -/
def bruteNN (x : Vec) (y : ℕ → Vec) (d ny : ℕ) : ℕ × ℚ :=
  (List.range' 1 (ny - 1)).foldl (bruteStep fun j => fvec_L2sqr x (y j) d)
    (0, fvec_L2sqr x (y 0) d)

/-- Under the loop invariant val_i = fvec_L2sqr(x, y_ids_i) the Elkan step
acts exactly like the brute-force step: the skip bound and the first-half
early exit only ever discard candidates that are not strictly better. -/
theorem elkanStep_eq_bruteStep (x : Vec) (y : ℕ → Vec) (d : ℕ) (s : ℕ × ℚ)
    (j : ℕ) (hinv : s.2 = fvec_L2sqr x (y s.1) d) :
    elkanStep x y d s j = bruteStep (fun j' => fvec_L2sqr x (y j') d) s j := by
  rw [elkanStep, bruteStep]
  have hsplit : fvec_L2sqr x (y j) (d / 2) +
      fvec_L2sqr (vshift x (d / 2)) (vshift (y j) (d / 2)) (d - d / 2) =
      fvec_L2sqr x (y j) d := fvec_L2sqr_split x (y j) d
  by_cases h1 : s.2 * 4 ≤ fvec_L2sqr (y s.1) (y j) d
  · rw [if_pos h1]
    have hb : fvec_L2sqr x (y s.1) d * 4 ≤ fvec_L2sqr (y s.1) (y j) d := hinv ▸ h1
    have hge : s.2 ≤ fvec_L2sqr x (y j) d := by
      rw [hinv]
      exact elkan_skip_bound x (y s.1) (y j) d hb
    rw [if_neg (not_lt_of_le hge)]
  · rw [if_neg h1]
    by_cases h2 : s.2 ≤ fvec_L2sqr x (y j) (d / 2)
    · rw [if_pos h2]
      have hge : s.2 ≤ fvec_L2sqr x (y j) d := by
        refine le_trans h2 ?_
        rw [← hsplit]
        exact le_add_of_nonneg_right
          (fvec_L2sqr_nonneg (vshift x (d / 2)) (vshift (y j) (d / 2)) (d - d / 2))
      rw [if_neg (not_lt_of_le hge)]
    · rw [if_neg h2, hsplit]

/-- The brute-force step preserves the invariant val = f(ids). -/
theorem bruteStep_inv (f : ℕ → ℚ) (s : ℕ × ℚ) (j : ℕ) (hinv : s.2 = f s.1) :
    (bruteStep f s j).2 = f (bruteStep f s j).1 := by
  rw [bruteStep]
  by_cases h : f j < s.2
  · rw [if_pos h]
  · rw [if_neg h]; exact hinv

/-- Folding the Elkan step over any candidate list equals folding the
brute-force step, from any state satisfying the invariant. -/
theorem elkanFold_eq_bruteFold (x : Vec) (y : ℕ → Vec) (d : ℕ) (l : List ℕ)
    (s : ℕ × ℚ) (hinv : s.2 = fvec_L2sqr x (y s.1) d) :
    l.foldl (elkanStep x y d) s =
      l.foldl (bruteStep fun j => fvec_L2sqr x (y j) d) s := by
  induction l generalizing s with
  | nil => rfl
  | cons j t ih =>
    rw [List.foldl_cons, List.foldl_cons, elkanStep_eq_bruteStep x y d s j hinv]
    exact ih _ (bruteStep_inv _ s j hinv)

/-- The per-block Elkan scan is the brute-force scan of the same block,
started at the block's first member. -/
theorem elkanBlock_eq_bruteFold (x : Vec) (y : ℕ → Vec) (d j0 j1 : ℕ) :
    elkanBlock x y d j0 j1 =
      (List.range' (j0 + 1) (j1 - (j0 + 1))).foldl
        (bruteStep fun j => fvec_L2sqr x (y j) d) (j0, fvec_L2sqr x (y j0) d) :=
  elkanFold_eq_bruteFold x y d _ _ rfl

/-- Restart-and-merge law of the brute-force scan: continuing a scan through
j0 :: l from state s gives the same result as scanning j0 :: l afresh
(initialized at j0) and keeping the fresh result exactly when it is strictly
better than s. -/
theorem bruteFold_merge (f : ℕ → ℚ) (l : List ℕ) (j0 : ℕ) (s : ℕ × ℚ) :
    (j0 :: l).foldl (bruteStep f) s =
      if (l.foldl (bruteStep f) (j0, f j0)).2 < s.2 then
        l.foldl (bruteStep f) (j0, f j0)
      else s := by
  induction l using List.reverseRecOn with
  | nil => simp [bruteStep]
  | append_singleton t j ih =>
    have hcons : (j0 :: (t ++ [j])) = (j0 :: t) ++ [j] := rfl
    rw [hcons, List.foldl_append, ih, List.foldl_append]
    simp only [List.foldl_cons, List.foldl_nil, bruteStep]
    rcases lt_or_le (t.foldl (bruteStep f) (j0, f j0)).2 s.2 with hAB | hAB
    · rcases lt_or_le (f j) (t.foldl (bruteStep f) (j0, f j0)).2 with hc | hc
      · rw [if_pos hAB, if_pos hc]
        dsimp only
        rw [if_pos (lt_trans hc hAB)]
      · rw [if_pos hAB, if_neg (not_lt_of_le hc), if_pos hAB]
    · rcases lt_or_le (f j) (t.foldl (bruteStep f) (j0, f j0)).2 with hc | hc
      · rw [if_neg (not_lt_of_le hAB), if_pos hc]
      · rw [if_neg (not_lt_of_le hAB), if_neg (not_lt_of_le hc),
          if_neg (not_lt_of_le (le_trans hAB hc)), if_neg (not_lt_of_le hAB)]

/-- Prefix characterization of the Elkan outer loop: after the first m
blocks (1 ≤ m ≤ ⌈ny/bs⌉) the running per-query state equals the brute-force
scan of database positions [0, min(m·bs, ny)). -/
theorem elkan_blocks_prefix (x : Vec) (y : ℕ → Vec) (d ny bs : ℕ) (hbs : 0 < bs) :
    ∀ m, 1 ≤ m → m ≤ (ny + bs - 1) / bs →
      (List.range m).foldl (elkanOuterStep x y d ny bs) (0, 0) =
        (List.range' 1 (min (m * bs) ny - 1)).foldl
          (bruteStep fun j => fvec_L2sqr x (y j) d) (0, fvec_L2sqr x (y 0) d) := by
  intro m hm
  induction m, hm using Nat.le_induction with
  | base =>
    intro _
    rw [show List.range 1 = [0] from rfl, List.foldl_cons, List.foldl_nil]
    simp only [elkanOuterStep, if_true]
    rw [elkanBlock_eq_bruteFold]
    norm_num
  | succ m hm ih =>
    intro hle
    have hm' : m ≤ (ny + bs - 1) / bs := le_trans (Nat.le_succ m) hle
    have hmul : (m + 1) * bs = m * bs + bs := by ring
    have hdiv : (m + 1) * bs ≤ ny + bs - 1 := (Nat.le_div_iff_mul_le hbs).mp hle
    have hlt : m * bs < ny := by omega
    have hone : 1 ≤ m * bs := by
      have := Nat.mul_le_mul hm hbs
      omega
    rw [List.range_succ, List.foldl_append, ih hm', List.foldl_cons, List.foldl_nil]
    rw [min_eq_left (le_of_lt hlt)]
    simp only [elkanOuterStep]
    rw [if_neg (by omega : ¬ m = 0), elkanBlock_eq_bruteFold, ← bruteFold_merge]
    have hcons2 : (m * bs) :: List.range' (m * bs + 1)
        (min (m * bs + bs) ny - (m * bs + 1)) =
        List.range' (m * bs) (min (m * bs + bs) ny - m * bs) := by
      have hn : min (m * bs + bs) ny - m * bs =
          (min (m * bs + bs) ny - (m * bs + 1)) + 1 := by omega
      rw [hn, List.range'_succ]
    rw [hcons2, ← List.foldl_append]
    have hlists : List.range' 1 (m * bs - 1) ++
        List.range' (m * bs) (min (m * bs + bs) ny - m * bs) =
        List.range' 1 (min ((m + 1) * bs) ny - 1) := by
      have h1 : 1 + (m * bs - 1) = m * bs := by omega
      calc List.range' 1 (m * bs - 1) ++
          List.range' (m * bs) (min (m * bs + bs) ny - m * bs)
          = List.range' 1 (m * bs - 1) ++
            List.range' (1 + (m * bs - 1)) (min (m * bs + bs) ny - m * bs) := by
            rw [h1]
        _ = List.range' 1 ((min (m * bs + bs) ny - m * bs) + (m * bs - 1)) :=
            List.range'_append_1 1 (m * bs - 1) (min (m * bs + bs) ny - m * bs)
        _ = List.range' 1 (min ((m + 1) * bs) ny - 1) := by
            rw [hmul]
            congr 1
            omega
    rw [hlists]

/-- The blocked Elkan scan equals the brute-force scan for every positive
database size and every positive block size, in exact arithmetic. -/
theorem elkan_L2_blocked_eq_bruteNN (x : Vec) (y : ℕ → Vec) (d ny bs : ℕ)
    (hny : 0 < ny) (hbs : 0 < bs) :
    elkan_L2_blocked x y d ny bs = bruteNN x y d ny := by
  have hnb : 1 ≤ (ny + bs - 1) / bs := (Nat.le_div_iff_mul_le hbs).mpr (by omega)
  have hmin : min ((ny + bs - 1) / bs * bs) ny = ny := by
    have hdm := Nat.div_add_mod (ny + bs - 1) bs
    have hml : (ny + bs - 1) % bs < bs := Nat.mod_lt _ hbs
    have hcomm : (ny + bs - 1) / bs * bs = bs * ((ny + bs - 1) / bs) :=
      Nat.mul_comm _ _
    omega
  rw [elkan_L2_blocked,
    elkan_blocks_prefix x y d ny bs hbs ((ny + bs - 1) / bs) hnb (le_refl _), hmin]
  rfl

/-- C4: for every query i of a query set of size nx and every nonempty
database, elkan_L2_sse assigns query i exactly the (index, value) pair of
the brute-force arg-min squared-L2 scan over all ny database vectors (first
index on ties), in exact arithmetic — both at the source's block size 1024
and at every other positive block size bs; the skip bound never skips a
strictly better candidate, the two-half evaluation never rejects one, and
the first-block-unconditional / strictly-better block merge preserves the
running best. -/
theorem C4_elkan_exact_nearest_neighbor (x y : ℕ → Vec) (d nx ny bs : ℕ)
    (hny : 0 < ny) (hbs : 0 < bs) (i : ℕ) (hi : i < nx) :
    elkan_L2_sse x y d nx ny i = bruteNN (x i) y d ny ∧
    elkan_L2_blocked (x i) y d ny bs = bruteNN (x i) y d ny :=
  ⟨elkan_L2_blocked_eq_bruteNN (x i) y d ny 1024 hny (by norm_num),
   elkan_L2_blocked_eq_bruteNN (x i) y d ny bs hny hbs⟩

/-- Query batch of the C4 witness: one constant-zero query. -/
def c4x : ℕ → Vec := fun _ _ => 0

/-- Database of the C4 witness: vector j is the constant j. -/
def c4y : ℕ → Vec := fun j _ => (j : ℚ)

/-- C4 witness: the theorem instantiated at d = 1, nx = 1, ny = 2, block
size 3, query 0, with all hypotheses discharged by evaluation. -/
theorem C4_elkan_exact_nearest_neighbor_witness :
    ((0 : ℕ) < 2 ∧ (0 : ℕ) < 3 ∧ (0 : ℕ) < 1) ∧
    (elkan_L2_sse c4x c4y 1 1 2 0 = bruteNN (c4x 0) c4y 1 2 ∧
      elkan_L2_blocked (c4x 0) c4y 1 2 3 = bruteNN (c4x 0) c4y 1 2) :=
  ⟨⟨by decide, by decide, by decide⟩,
    C4_elkan_exact_nearest_neighbor c4x c4y 1 1 2 3 (by decide) (by decide) 0 (by decide)⟩

end Knowhere
